import Mathlib

/-!
Verification of the gcs-index request-resolution and listing engine

A shallow embedding of the gcs-index server (Go) in Lean 4.  Go strings are
modelled as `List Char` (the program only manipulates ASCII bytes), Go's
`time.Time` as nanoseconds (`Nat`), machine integers as `Int`/`Nat`.  The
storage backend is external: its answers (object listings, object attributes,
object contents) are passed to the embedded handlers as explicit arguments.

Embedded components:
* mount-point preparation and resolution (`prepareMountPoints` sort order,
  `findMountPoint`),
* the conditional-request logic of `handleObject`,
* the semver-extracting `guessVersion` (the greedy regular expression is
  embedded as a deterministic leftmost-first matcher) and the `sortLinks`
  comparator of the directory listing,
* the listing pipeline of `handleIndex` (merge, stable sort, adjacent
  deduplication, HTML/JSON entry selection),
* `linksFromStorage` readme-candidate recording,
* the size-bounded readme cache (`fetchReadme`).
-/

/-! ## Go string primitives -/

/-- Go strings, as lists of (ASCII) characters. -/
abbrev Str := List Char

/-- Coerce a Lean string literal into the Go-string model. -/
def strL (s : String) : Str := s.toList

/-- Model of Go `strings.Compare`: lexicographic byte comparison
returning -1, 0 or 1. -/
def strCompare : Str → Str → Int
  | [], [] => 0
  | [], _ :: _ => -1
  | _ :: _, [] => 1
  | a :: as, b :: bs => if a < b then -1 else if b < a then 1 else strCompare as bs

/-- Model of Go `strings.HasPrefix p s` (arguments: the candidate prefix
first, then the full string). -/
def strHasPfx : Str → Str → Bool
  | [], _ => true
  | _ :: _, [] => false
  | a :: as, b :: bs => a = b && strHasPfx as bs

/-- Model of Go `strings.TrimPrefix(s, p)`: drop `p` from the front of `s`
when it is a prefix, otherwise return `s` unchanged. -/
def trimPfx (p s : Str) : Str :=
  if strHasPfx p s then s.drop p.length else s

theorem strCompare_eq_zero_iff : ∀ a b : Str, strCompare a b = 0 ↔ a = b := by
  intro a
  induction a with
  | nil => intro b; cases b <;> simp [strCompare]
  | cons x xs ih =>
    intro b
    cases b with
    | nil => simp [strCompare]
    | cons y ys =>
      rcases lt_trichotomy x y with h1 | h1 | h1
      · constructor
        · intro h; simp [strCompare, h1] at h
        · intro h; injection h with h _; exact absurd h (ne_of_lt h1)
      · subst h1
        simp [strCompare, ih ys]
      · constructor
        · intro h; simp [strCompare, h1, asymm h1] at h
        · intro h; injection h with h _; exact absurd h (ne_of_gt h1)

theorem strCompare_neg : ∀ a b : Str, strCompare a b = -strCompare b a := by
  intro a
  induction a with
  | nil => intro b; cases b <;> simp [strCompare]
  | cons x xs ih =>
    intro b
    cases b with
    | nil => simp [strCompare]
    | cons y ys =>
      rcases lt_trichotomy x y with h1 | h1 | h1
      · simp [strCompare, h1, asymm h1]
      · subst h1; simp [strCompare, ih ys]
      · simp [strCompare, h1, asymm h1]

theorem strHasPfx_iff : ∀ p s : Str, strHasPfx p s = true ↔ ∃ t, p ++ t = s := by
  intro p
  induction p with
  | nil => intro s; simp [strHasPfx]
  | cons a as ih =>
    intro s
    cases s with
    | nil => simp [strHasPfx]
    | cons b bs =>
      simp only [strHasPfx, Bool.and_eq_true, decide_eq_true_eq, ih bs]
      constructor
      · rintro ⟨rfl, t, rfl⟩; exact ⟨t, rfl⟩
      · rintro ⟨t, h⟩
        injection h with h1 h2
        exact ⟨h1, t, h2⟩

/-! ## Mount points

From `main.go`: `prepareMountPoints` normalises the configured
`path:bucket:prefix` triples and then sorts them by descending path length,
ties broken by ascending lexicographic order; `findMountPoint` does a forward
linear scan for the first mount whose path is a prefix of the request path. -/

/-- A configured mount: virtual path, bucket, backend object-name prefix
(the Go struct `MountPoint`; its `Prefix` field is called `Pfx` here). -/
structure MountPoint where
  Path : Str
  Bucket : Str
  Pfx : Str
deriving DecidableEq, Repr

/-- The comparison function passed to `slices.SortFunc` in
`prepareMountPoints`: longest path first, equal lengths ordered
lexicographically ascending. -/
def mountCmp (a b : MountPoint) : Int :=
  if a.Path.length ≠ b.Path.length then (b.Path.length : Int) - (a.Path.length : Int)
  else strCompare a.Path b.Path

/-- The sorted mount table produced at startup (`slices.SortFunc` with
`mountCmp`; modelled as an insertion sort, which realises the same
comparator ordering). -/
def sortMounts (ms : List MountPoint) : List MountPoint :=
  List.insertionSort (fun a b => mountCmp a b ≤ 0) ms

/-- Model of `findMountPoint`: forward scan, first mount whose `Path` is a
prefix of the request path. -/
def findMountPoint (ms : List MountPoint) (path : Str) : Option MountPoint :=
  ms.find? (fun m => strHasPfx m.Path path)

theorem mountCmp_total (a b : MountPoint) : mountCmp a b ≤ 0 ∨ mountCmp b a ≤ 0 := by
  have h := strCompare_neg a.Path b.Path
  unfold mountCmp
  split_ifs <;> omega

theorem strCompare_le_trans :
    ∀ a b c : Str, strCompare a b ≤ 0 → strCompare b c ≤ 0 → strCompare a c ≤ 0 := by
  intro a
  induction a with
  | nil => intro b c _ _; cases c <;> simp [strCompare]
  | cons x xs ih =>
    intro b c hab hbc
    cases b with
    | nil => simp [strCompare] at hab
    | cons y ys =>
      cases c with
      | nil => simp [strCompare] at hbc
      | cons z zs =>
        rcases lt_trichotomy x y with hxy | hxy | hxy
        · rcases lt_trichotomy y z with hyz | hyz | hyz
          · simp [strCompare, lt_trans hxy hyz]
          · subst hyz; simp [strCompare, hxy]
          · simp [strCompare, hyz, asymm hyz] at hbc
        · subst hxy
          rcases lt_trichotomy x z with hxz | hxz | hxz
          · simp [strCompare, hxz]
          · subst hxz
            simp only [strCompare, lt_self_iff_false, if_false] at hab hbc ⊢
            exact ih ys zs hab hbc
          · simp [strCompare, hxz, asymm hxz] at hbc
        · simp [strCompare, hxy, asymm hxy] at hab

theorem mountCmp_trans (a b c : MountPoint) :
    mountCmp a b ≤ 0 → mountCmp b c ≤ 0 → mountCmp a c ≤ 0 := by
  unfold mountCmp
  split_ifs <;> intro h1 h2 <;> try omega
  exact strCompare_le_trans a.Path b.Path c.Path h1 h2

/-- In a list that is pairwise ordered by `r`, `find?` returns an element
that is `r`-below every other element satisfying the predicate. -/
theorem find?_pairwise_min {α : Type} {r : α → α → Prop} {p : α → Bool}
    {l : List α} {m : α} (hp : List.Pairwise r l) (hf : l.find? p = some m) :
    ∀ x ∈ l, p x = true → r m x ∨ x = m := by
  induction l with
  | nil => simp at hf
  | cons h t ih =>
    by_cases hh : p h
    · rw [List.find?_cons_of_pos _ hh] at hf
      injection hf with hf
      subst hf
      intro x hx _
      rcases List.mem_cons.mp hx with rfl | hx
      · right; rfl
      · left; exact (List.pairwise_cons.mp hp).1 x hx
    · rw [List.find?_cons_of_neg _ (by simpa using hh)] at hf
      intro x hx hpx
      rcases List.mem_cons.mp hx with rfl | hx
      · exact absurd hpx (by simpa using hh)
      · exact ih (List.pairwise_cons.mp hp).2 hf x hx hpx

theorem sortMounts_pairwise (ms : List MountPoint) :
    List.Pairwise (fun a b => mountCmp a b ≤ 0) (sortMounts ms) :=
  @List.sorted_insertionSort MountPoint (fun a b => mountCmp a b ≤ 0)
    (fun a b => Int.decLe _ _)
    ⟨fun a b => mountCmp_total a b⟩ ⟨fun a b c => mountCmp_trans a b c⟩ ms

theorem sortMounts_perm (ms : List MountPoint) : List.Perm (sortMounts ms) ms :=
  List.perm_insertionSort _ ms

/-- Two prefixes of the same string that have the same length are equal. -/
theorem pfx_eq_of_length_eq {p q s : Str} (hp : strHasPfx p s = true)
    (hq : strHasPfx q s = true) (h : p.length = q.length) : p = q := by
  rcases (strHasPfx_iff p s).mp hp with ⟨t, rfl⟩
  rcases (strHasPfx_iff q (p ++ t)).mp hq with ⟨u, hu⟩
  have h1 : p = (p ++ t).take p.length := by simp
  have h2 : q = (p ++ t).take p.length := by
    rw [← hu, h]; simp
  rw [h1, h2]

/-- C1: Mount resolution returns the configured mount whose virtual path
is the longest prefix of the request path: `findMountPoint` on the
construction-time-sorted table yields a mount whose path is a prefix of the
path and is at least as long as the path of every other prefix mount (two
equal-length prefix mounts necessarily share the same virtual path, so the
lexicographic tie-break of the sort is respected trivially); it yields `none`
exactly when no configured mount's path is a prefix of the path. -/
theorem mount_resolution_longest (ms : List MountPoint) (path : Str) :
    (∀ m, findMountPoint (sortMounts ms) path = some m →
      strHasPfx m.Path path = true ∧
      ∀ m' ∈ ms, strHasPfx m'.Path path = true →
        m'.Path.length ≤ m.Path.length ∧
          (m'.Path.length = m.Path.length → m'.Path = m.Path)) ∧
    (findMountPoint (sortMounts ms) path = none →
      ∀ m' ∈ ms, strHasPfx m'.Path path = false) := by
  constructor
  · intro m hm
    have hmem : strHasPfx m.Path path = true := by
      have := List.find?_some hm
      simpa using this
    refine ⟨hmem, ?_⟩
    intro m' hm' hp'
    have hm'sorted : m' ∈ sortMounts ms := ((sortMounts_perm ms).mem_iff).mpr hm'
    have := find?_pairwise_min (sortMounts_pairwise ms) hm m' hm'sorted hp'
    rcases this with hr | rfl
    · unfold mountCmp at hr
      by_cases hl : m.Path.length = m'.Path.length
      · exact ⟨le_of_eq hl.symm, fun _ => pfx_eq_of_length_eq hp' hmem hl.symm⟩
      · constructor
        · simp only [ne_eq, hl, not_false_eq_true, if_true, ite_true] at hr
          omega
        · intro h; exact absurd h.symm hl
    · exact ⟨le_rfl, fun _ => rfl⟩
  · intro hn m' hm'
    have hm'sorted : m' ∈ sortMounts ms := ((sortMounts_perm ms).mem_iff).mpr hm'
    have := List.find?_eq_none.mp hn m' hm'sorted
    simpa using this

/-- Concrete check of `mount_resolution_longest`: with mounts `/a/` and
`/a/b/`, resolving `/a/b/c` picks `/a/b/` and both conclusions hold for the
shorter mount. -/
theorem mount_resolution_longest_w :
    strHasPfx (strL "/a/b/") (strL "/a/b/c") = true ∧
      (strL "/a/").length ≤ (strL "/a/b/").length :=
  have hm := (mount_resolution_longest
      [⟨strL "/a/", strL "bx", strL ""⟩, ⟨strL "/a/b/", strL "by", strL ""⟩]
      (strL "/a/b/c")).1
      ⟨strL "/a/b/", strL "by", strL ""⟩ (by decide)
  ⟨hm.1, (hm.2 ⟨strL "/a/", strL "bx", strL ""⟩ (by decide) (by decide)).1⟩

/-! ## Object serving: conditional requests

From `handleObject`: after resolving the mount and fetching the object's
attributes, the handler sets `ETag`/`Last-Modified` and then evaluates the
conditional request headers in source order: first `If-None-Match` (when the
header value is non-empty), then — with no `else` — `If-Modified-Since`
(when it parses). -/

/-- Model of Go `strings.Trim(s, string(c))`: remove all leading and
trailing occurrences of the character `c`. -/
def trimChar (c : Char) (s : Str) : Str :=
  ((s.dropWhile (fun x => x = c)).reverse.dropWhile (fun x => x = c)).reverse

/-- The `If-None-Match` normalisation in `handleObject`:
`strings.Trim(strings.TrimPrefix(inm, "W/"), "\"")`. -/
def stripINM (s : Str) : Str := trimChar (Char.ofNat 34) (trimPfx (strL "W/") s)

/-- Object attributes used by `handleObject` (`attrs.Etag` and
`attrs.Updated`, the latter as nanoseconds). -/
structure GetAttrs where
  Etag : Str
  Updated : Nat
deriving DecidableEq, Repr

/-- Go `t.Truncate(time.Second)` on a non-negative time: round down to a
multiple of 10^9 nanoseconds. -/
def truncSec (n : Nat) : Nat := n / 1000000000 * 1000000000

/-- Go `a.After(b)`: strictly later. -/
def timeAfter (a b : Nat) : Bool := b < a

/-- Outcome of `handleObject` as visible at the HTTP layer. -/
inductive ObjResult
  | notFound      -- 404: unresolved mount or failed metadata fetch
  | notModified   -- 304, no body
  | okHead        -- 200, headers only (HEAD)
  | okBody        -- 200, body streamed (GET)
deriving DecidableEq, Repr

/-- Model of `handleObject`.  `attrsF` is the storage backend's answer to
the metadata fetch (`none` = error), `inm` the raw `If-None-Match` header
value (`""` when absent — Go's `Header.Get` cannot distinguish the two),
`ims` the result of parsing the `If-Modified-Since` header (`none` when
absent or unparseable). -/
def handleObject (ms : List MountPoint) (path : Str) (attrsF : Option GetAttrs)
    (inm : Str) (ims : Option Nat) (head : Bool) : ObjResult :=
  match findMountPoint ms path with
  | none => .notFound
  | some _ =>
    match attrsF with
    | none => .notFound
    | some attrs =>
      if inm ≠ [] ∧ stripINM inm = attrs.Etag then .notModified
      else
        match ims with
        | some t =>
          if ¬ timeAfter (truncSec attrs.Updated) t then .notModified
          else if head then .okHead else .okBody
        | none => if head then .okHead else .okBody

/-- C2, counterexample: A request whose `If-None-Match` value (after
stripping) differs from the object's hash does *not* always get a full
response: the code evaluates `If-Modified-Since` even when `If-None-Match`
is present (there is no `else` between the two checks), so a stale
`If-None-Match` together with a satisfied `If-Modified-Since` yields
`304 Not Modified`. -/
theorem inm_mismatch_ims_still_checked_cex :
    stripINM (strL "\"X\"") ≠ (strL "H") ∧
    handleObject [⟨strL "/", strL "b", strL ""⟩] (strL "/f")
      (some ⟨strL "H", 5000000000⟩) (strL "\"X\"") (some 6000000000) false =
      .notModified := by
  decide

/-- Reduction of `handleObject` once the mount is resolved, the metadata
fetch has succeeded and `If-Modified-Since` parses to `t`. -/
theorem handleObject_eq_some (ms : List MountPoint) (path : Str) (m : MountPoint)
    (attrs : GetAttrs) (inm : Str) (t : Nat) (head : Bool)
    (hm : findMountPoint ms path = some m) :
    handleObject ms path (some attrs) inm (some t) head =
      (if inm ≠ [] ∧ stripINM inm = attrs.Etag then .notModified
       else if ¬ timeAfter (truncSec attrs.Updated) t then .notModified
       else if head then .okHead else .okBody) := by
  unfold handleObject
  rw [hm]

/-- Reduction of `handleObject` when `If-Modified-Since` is absent or does
not parse. -/
theorem handleObject_eq_none (ms : List MountPoint) (path : Str) (m : MountPoint)
    (attrs : GetAttrs) (inm : Str) (head : Bool)
    (hm : findMountPoint ms path = some m) :
    handleObject ms path (some attrs) inm none head =
      (if inm ≠ [] ∧ stripINM inm = attrs.Etag then .notModified
       else if head then .okHead else .okBody) := by
  unfold handleObject
  rw [hm]

/-- C2, amended: When `If-None-Match` is present but its stripped value
differs from the object's hash, the handler falls through to the
`If-Modified-Since` check: the request yields `304 Not Modified` exactly
when an `If-Modified-Since` value is supplied (present and parseable) and
the object's last-modified instant, truncated to one-second precision, is
not strictly after it; otherwise a full (or header-only) response is sent. -/
theorem inm_mismatch_ims_evaluated (ms : List MountPoint) (path : Str)
    (attrs : GetAttrs) (inm : Str) (ims : Option Nat) (head : Bool) (m : MountPoint)
    (hm : findMountPoint ms path = some m)
    (h1 : inm ≠ []) (h2 : stripINM inm ≠ attrs.Etag) :
    handleObject ms path (some attrs) inm ims head = .notModified ↔
      ∃ t, ims = some t ∧ truncSec attrs.Updated ≤ t := by
  cases ims with
  | none =>
    rw [handleObject_eq_none ms path m attrs inm head hm,
      if_neg (fun h => h2 h.2)]
    constructor
    · intro h; cases head <;> simp at h
    · rintro ⟨t, ht, _⟩; exact Option.noConfusion ht
  | some t =>
    rw [handleObject_eq_some ms path m attrs inm t head hm,
      if_neg (fun h => h2 h.2)]
    by_cases hle : truncSec attrs.Updated ≤ t
    · rw [if_pos (by simp [timeAfter]; omega)]
      exact ⟨fun _ => ⟨t, rfl, hle⟩, fun _ => rfl⟩
    · rw [if_neg (by simp [timeAfter]; omega)]
      constructor
      · intro h; cases head <;> simp at h
      · rintro ⟨t', ht', hle'⟩
        injection ht' with ht'
        subst ht'
        exact absurd hle' hle

/-- Concrete instantiation of `inm_mismatch_ims_evaluated`: a mismatching
`If-None-Match` plus `If-Modified-Since` after the truncated update time
gives `304`. -/
theorem inm_mismatch_ims_evaluated_w :
    handleObject [⟨strL "/", strL "b", strL ""⟩] (strL "/f")
      (some ⟨strL "H", 5000000000⟩) (strL "\"X\"") (some 6000000000) false =
      .notModified :=
  (inm_mismatch_ims_evaluated [⟨strL "/", strL "b", strL ""⟩] (strL "/f")
      ⟨strL "H", 5000000000⟩ (strL "\"X\"") (some 6000000000) false
      ⟨strL "/", strL "b", strL ""⟩ (by decide) (by decide) (by decide)).mpr
    ⟨6000000000, rfl, by decide⟩

/-- C3: For a GET or HEAD object request whose mount resolves and whose
metadata fetch succeeds: a present `If-None-Match` whose stripped value
equals the object's hash yields `304 Not Modified` (a body-less response);
and when no `If-None-Match` header is present, a parseable
`If-Modified-Since` value `t` yields `304` exactly when the object's
last-modified instant truncated to one-second precision is not strictly
after `t` — in particular `t = truncSec attrs.Updated` itself yields `304`. -/
theorem conditional_get_matches (ms : List MountPoint) (path : Str)
    (attrs : GetAttrs) (inm : Str) (ims : Option Nat) (head : Bool) (m : MountPoint)
    (hm : findMountPoint ms path = some m) :
    (inm ≠ [] → stripINM inm = attrs.Etag →
      handleObject ms path (some attrs) inm ims head = .notModified) ∧
    (∀ t, ims = some t →
      (handleObject ms path (some attrs) [] ims head = .notModified ↔
        truncSec attrs.Updated ≤ t)) ∧
    handleObject ms path (some attrs) [] (some (truncSec attrs.Updated)) head =
      .notModified := by
  refine ⟨?_, ?_, ?_⟩
  · intro h1 h2
    cases ims with
    | none =>
      rw [handleObject_eq_none ms path m attrs inm head hm, if_pos ⟨h1, h2⟩]
    | some t =>
      rw [handleObject_eq_some ms path m attrs inm t head hm, if_pos ⟨h1, h2⟩]
  · rintro t rfl
    rw [handleObject_eq_some ms path m attrs [] t head hm,
      if_neg (fun h => h.1 rfl)]
    by_cases hle : truncSec attrs.Updated ≤ t
    · rw [if_pos (by simp [timeAfter]; omega)]
      exact ⟨fun _ => hle, fun _ => rfl⟩
    · rw [if_neg (by simp [timeAfter]; omega)]
      constructor
      · intro h; cases head <;> simp at h
      · intro h; exact absurd h hle
  · rw [handleObject_eq_some ms path m attrs [] (truncSec attrs.Updated) head hm,
      if_neg (fun h => h.1 rfl),
      if_pos (by simp [timeAfter])]

/-- Concrete instantiation of `conditional_get_matches`: matching
`If-None-Match` gives `304`, and `If-Modified-Since` at exactly the
truncated update instant gives `304`. -/
theorem conditional_get_matches_w :
    handleObject [⟨strL "/", strL "b", strL ""⟩] (strL "/f")
      (some ⟨strL "H", 5500000000⟩) (strL "W/\"H\"") none false = .notModified ∧
    handleObject [⟨strL "/", strL "b", strL ""⟩] (strL "/f")
      (some ⟨strL "H", 5500000000⟩) [] (some 5000000000) false = .notModified := by
  have h := conditional_get_matches [⟨strL "/", strL "b", strL ""⟩] (strL "/f")
      ⟨strL "H", 5500000000⟩ (strL "W/\"H\"") none false
      ⟨strL "/", strL "b", strL ""⟩ (by decide)
  refine ⟨h.1 (by decide) (by decide), ?_⟩
  have h2 := conditional_get_matches [⟨strL "/", strL "b", strL ""⟩] (strL "/f")
      ⟨strL "H", 5500000000⟩ (strL "W/\"H\"") (some 5000000000) false
      ⟨strL "/", strL "b", strL ""⟩ (by decide)
  exact (h2.2.1 5000000000 rfl).mpr (by decide)

/-! ## Version extraction (`version.go`)

`guessVersion` runs a regular expression that is "the same as the one from
go-version, but greedier" over the name, then parses the matched substring
with `go-version`'s `NewVersion`.  The regular expression

    v?([0-9]+(\.[0-9]+)*)
    (-([0-9]+[0-9A-Za-z\-~]*(\.[0-9A-Za-z\-~]+)*)
      |(-?([A-Za-z\-~]+[0-9A-Za-z\-~]*(\.[0-9A-Za-z\-~]+)*)))?
    (\+([0-9A-Za-z\-~]+(\.[0-9A-Za-z\-~]+)*))?

is embedded below as a deterministic matcher realising Go's leftmost-first
(backtracking-preference) search semantics: positions are scanned left to
right, and at the first matching position every quantifier is greedy, the
first prerelease alternative is preferred, and the optional leading `v` or
`-` backtracks only when its mandatory continuation cannot start. -/

/-- The character class `[0-9A-Za-z\-~]`. -/
def isFull (c : Char) : Bool := c.isDigit || c.isAlpha || c = '-' || c = '~'

/-- The character class `[A-Za-z\-~]`. -/
def isPreAl (c : Char) : Bool := c.isAlpha || c = '-' || c = '~'

/-- Greedy run of a character class: the longest prefix of characters
satisfying `p`, plus the remaining suffix. -/
def runOf (p : Char → Bool) : Str → Str × Str
  | [] => ([], [])
  | c :: t =>
    if p c then
      let r := runOf p t
      (c :: r.1, r.2)
    else ([], c :: t)

theorem runOf_length (p : Char → Bool) :
    ∀ s : Str, (runOf p s).1.length + (runOf p s).2.length = s.length := by
  intro s
  induction s with
  | nil => simp [runOf]
  | cons c t ih =>
    by_cases h : p c
    · simp [runOf, h]; omega
    · simp [runOf, h]

/-- Greedy star of `(\. C+)` groups for a character class `C`, with
explicit recursion fuel (structural recursion, so that the definition
evaluates inside the kernel; each group consumes at least two characters,
so fuel `s.length` never runs out). -/
def dotGroupsF (p : Char → Bool) : Nat → Str → Str × Str
  | 0, s => ([], s)
  | _ + 1, [] => ([], [])
  | f + 1, c :: t =>
    if c = '.' then
      match runOf p t with
      | ([], _) => ([], c :: t)
      | (r1 :: rs, rest) =>
        let g := dotGroupsF p f rest
        ('.' :: r1 :: (rs ++ g.1), g.2)
    else ([], c :: t)

/-- Greedy star of `(\. C+)` groups for a character class `C`: the matched
characters and the remaining suffix. -/
def dotGroups (p : Char → Bool) (s : Str) : Str × Str := dotGroupsF p s.length s

/-- Prerelease match result: the raw consumed characters and the content of
the capture group (the raw text minus a dash consumed by the `-?` outside
the group). -/
structure PreM where
  raw : Str
  cap : Str
deriving DecidableEq, Repr

/-- Second prerelease alternative without its optional dash:
`[A-Za-z\-~]+[0-9A-Za-z\-~]*(\.[0-9A-Za-z\-~]+)*`, or the empty match. -/
def matchPreNoDash (s : Str) : PreM × Str :=
  match runOf isPreAl s with
  | ([], _) => (⟨[], []⟩, s)
  | (a :: as, r1) =>
    let x := runOf isFull r1
    let g := dotGroups isFull x.2
    (⟨a :: (as ++ x.1 ++ g.1), a :: (as ++ x.1 ++ g.1)⟩, g.2)

/-- Second prerelease alternative
`-?([A-Za-z\-~]+[0-9A-Za-z\-~]*(\.[0-9A-Za-z\-~]+)*)`: the greedy `-?`
consumes a dash only when the mandatory letter-class run can start after
it; otherwise it backtracks to the empty match (and the class, which
contains `-`, may then consume the dash itself). -/
def matchPreAlt2 (s : Str) : PreM × Str :=
  match s with
  | '-' :: t =>
    match runOf isPreAl t with
    | ([], _) => matchPreNoDash ('-' :: t)
    | (a :: as, r1) =>
      let x := runOf isFull r1
      let g := dotGroups isFull x.2
      (⟨'-' :: a :: (as ++ x.1 ++ g.1), a :: (as ++ x.1 ++ g.1)⟩, g.2)
  | _ => matchPreNoDash s

/-- The full prerelease alternation: the first alternative
`-([0-9]+[0-9A-Za-z\-~]*(\.[0-9A-Za-z\-~]+)*)` is preferred; when its
mandatory `-`+digit start is absent the second alternative is tried. -/
def matchPre (s : Str) : PreM × Str :=
  match s with
  | '-' :: t =>
    match runOf Char.isDigit t with
    | ([], _) => matchPreAlt2 ('-' :: t)
    | (d :: ds, r1) =>
      let x := runOf isFull r1
      let g := dotGroups isFull x.2
      (⟨'-' :: d :: (ds ++ x.1 ++ g.1), d :: (ds ++ x.1 ++ g.1)⟩, g.2)
  | _ => matchPreAlt2 s

/-- The optional build-metadata component
`(\+([0-9A-Za-z\-~]+(\.[0-9A-Za-z\-~]+)*))?`: raw text, capture content and
remaining suffix. -/
def matchBuild (s : Str) : Str × Str × Str :=
  match s with
  | '+' :: t =>
    match runOf isFull t with
    | ([], _) => ([], [], '+' :: t)
    | (a :: as, r1) =>
      let g := dotGroups isFull r1
      ('+' :: a :: (as ++ g.1), a :: (as ++ g.1), g.2)
  | _ => ([], [], s)

/-- The components of a version-regular-expression match. -/
structure VParts where
  hasV : Bool
  core : Str
  preRaw : Str
  preCap : Str
  buildRaw : Str
  buildCap : Str
deriving DecidableEq, Repr

/-- The full matched substring described by `VParts`. -/
def vpMatched (p : VParts) : Str :=
  (if p.hasV then ['v'] else []) ++ p.core ++ p.preRaw ++ p.buildRaw

/-- Match the version regular expression at the start of `s` (preference
order of a backtracking search, every quantifier greedy).  The optional
leading `v` is consumed only when a digit follows it. -/
def matchAt (s : Str) : Option (VParts × Str) :=
  let v : Bool × Str :=
    match s with
    | 'v' :: c :: t => if c.isDigit then (true, c :: t) else (false, s)
    | _ => (false, s)
  match runOf Char.isDigit v.2 with
  | ([], _) => none
  | (d :: ds, s2) =>
    let g := dotGroups Char.isDigit s2
    let pre := matchPre g.2
    let bld := matchBuild pre.2
    some (⟨v.1, d :: (ds ++ g.1), pre.1.raw, pre.1.cap, bld.1, bld.2.1⟩, bld.2.2)

/-- Scan start positions left to right (Go `FindStringIndex` leftmost
semantics); returns the offset of the first matching position and the match
parts. -/
def guessMatchAux : Str → Nat → Option (Nat × VParts)
  | [], _ => none
  | c :: t, i =>
    match matchAt (c :: t) with
    | some (p, _) => some (i, p)
    | none => guessMatchAux t (i + 1)

/-- The leftmost match of the version regular expression in `s`. -/
def guessMatchParts (s : Str) : Option (Nat × VParts) := guessMatchAux s 0

/-! ### `go-version` parsing and comparison (external library model)

`guessVersion` feeds the matched substring to
`github.com/hashicorp/go-version`'s `NewVersion` and `sortLinks` compares
the results with its `Compare`.  That library is an external dependency of
the repository; it is modelled here: `NewVersion` decomposes the (already
matched) text into numeric segments (zero-padded to at least three),
prerelease and build metadata, and `Compare` orders by segments, then by
prerelease (absence of a prerelease sorting higher, parts compared
numerically when both sides parse as integers, otherwise textually); build
metadata never participates in comparison. -/

/-- A parsed version: numeric segments (padded to ≥ 3), prerelease text and
build metadata. -/
structure GoVersion where
  segments : List Int
  pre : Str
  metadata : Str
deriving DecidableEq, Repr

/-- Split on `'.'` (Go `strings.Split(s, ".")`). -/
def splitDot : Str → List Str
  | [] => [[]]
  | c :: t =>
    if c = '.' then [] :: splitDot t
    else
      match splitDot t with
      | [] => [[c]]
      | p :: ps => (c :: p) :: ps

/-- Decimal value of a digit string. -/
def digitsToNat (s : Str) : Nat := s.foldl (fun n c => n * 10 + (c.toNat - 48)) 0

/-- Pad a segment list with zeros to length at least three. -/
def pad3 (l : List Int) : List Int := l ++ List.replicate (3 - l.length) 0

/-- Model of `version.NewVersion` applied to a string matched by the
version regular expression. -/
def newVersionModel (p : VParts) : GoVersion :=
  ⟨pad3 ((splitDot p.core).map (fun d => (digitsToNat d : Int))), p.preCap, p.buildCap⟩

/-- Model of `guessVersion`: the leftmost regular-expression match, parsed,
together with the match's starting offset. -/
def guessVersion (name : Str) : Option (GoVersion × Nat) :=
  (guessMatchParts name).map (fun ip => (newVersionModel ip.2, ip.1))

/-- `strconv.ParseInt` on a prerelease part: an optional sign followed by
digits only. -/
def parsePartInt (s : Str) : Option Int :=
  match s with
  | '-' :: t =>
    if t ≠ [] ∧ t.all Char.isDigit then some (-(digitsToNat t : Int)) else none
  | _ =>
    if s ≠ [] ∧ s.all Char.isDigit then some ((digitsToNat s : Int)) else none

/-- Model of `go-version`'s `comparePart` on two prerelease parts. -/
def comparePart (x y : Str) : Int :=
  if x = y then 0
  else if x = [] then (if (parsePartInt y).isSome then -1 else 1)
  else if y = [] then (if (parsePartInt x).isSome then 1 else -1)
  else
    match parsePartInt x, parsePartInt y with
    | some _, none => -1
    | none, some _ => 1
    | none, none => if strCompare x y > 0 then 1 else -1
    | some xi, some yi => if xi > yi then 1 else -1

/-- Part loop of `comparePrereleases` once the left side is exhausted
(missing parts compare as the empty string). -/
def comparePartsEmpty : List Str → Int
  | [] => 0
  | q :: qs =>
    let c := comparePart [] q
    if c ≠ 0 then c else comparePartsEmpty qs

/-- Model of `go-version`'s `comparePrereleases` part loop (missing parts
compare as the empty string). -/
def comparePreParts : List Str → List Str → Int
  | [], qs => comparePartsEmpty qs
  | p :: ps, [] =>
    let c := comparePart p []
    if c ≠ 0 then c else comparePreParts ps []
  | p :: ps, q :: qs =>
    let c := comparePart p q
    if c ≠ 0 then c else comparePreParts ps qs

/-- Model of `go-version`'s `comparePrereleases`. -/
def comparePre (a b : Str) : Int :=
  if a = b then 0 else comparePreParts (splitDot a) (splitDot b)

/-- Segment comparison against an exhausted (all-zero-padded) left side. -/
def segCompareZeros : List Int → Int
  | [] => 0
  | y :: ys => if (0 : Int) < y then -1 else if y < 0 then 1 else segCompareZeros ys

/-- Segment-by-segment comparison with zero padding. -/
def segCompare : List Int → List Int → Int
  | [], ys => segCompareZeros ys
  | x :: xs, [] => if x < 0 then -1 else if (0 : Int) < x then 1 else segCompare xs []
  | x :: xs, y :: ys => if x < y then -1 else if y < x then 1 else segCompare xs ys

/-- Model of `go-version`'s `Version.Compare`: equal versions compare 0;
equal segments fall through to prerelease comparison (no prerelease sorts
higher); otherwise segments decide. -/
def versionCompare (v o : GoVersion) : Int :=
  if v = o then 0
  else if v.segments = o.segments then
    if v.pre = [] ∧ o.pre = [] then 0
    else if v.pre = [] then 1
    else if o.pre = [] then -1
    else comparePre v.pre o.pre
  else segCompare v.segments o.segments

theorem versionCompare_self (v : GoVersion) : versionCompare v v = 0 := by
  simp [versionCompare]

theorem guessMatchAux_none_before :
    ∀ (s : Str) (i k : Nat) (p : VParts),
      guessMatchAux s i = some (k, p) → ∀ j, j < k - i → matchAt (s.drop j) = none := by
  intro s
  induction s with
  | nil => intro i k p h; simp [guessMatchAux] at h
  | cons c t ih =>
    intro i k p h j hj
    unfold guessMatchAux at h
    cases hma : matchAt (c :: t) with
    | some q =>
      rw [hma] at h
      injection h with h
      injection h with h1 _
      omega
    | none =>
      rw [hma] at h
      cases j with
      | zero => simpa using hma
      | succ j' =>
        have := ih (i + 1) k p h j' (by omega)
        simpa using this

/-- C6, counterexample: The matched substring for
`"app-v1.2.3-rc.1+build5.tar.gz"` is *not* `"v1.2.3-rc.1+build5"`: the
greedy build-metadata component `(\+([0-9A-Za-z\-~]+(\.[0-9A-Za-z\-~]+)*))?`
also consumes the file extension, so the match (starting at offset 4) is
the rest of the name, `"v1.2.3-rc.1+build5.tar.gz"`. -/
theorem guessVersion_example_cex :
    (guessMatchParts (strL "app-v1.2.3-rc.1+build5.tar.gz")).map
        (fun ip => (ip.1, vpMatched ip.2)) =
      some (4, strL "v1.2.3-rc.1+build5.tar.gz") ∧
    strL "v1.2.3-rc.1+build5.tar.gz" ≠ strL "v1.2.3-rc.1+build5" := by
  constructor
  · decide
  · decide

/-- C6, amended: `guessVersion "app-v1.2.3-rc.1+build5.tar.gz"`
returns a successfully parsed version (segments 1.2.3, prerelease `rc.1`,
build metadata `build5.tar.gz`) whose matched substring is
`"v1.2.3-rc.1+build5.tar.gz"`, beginning at offset 4 of the input;
`guessVersion "no-version-here"` returns none; extraction finds the first
(leftmost) substring matching the version grammar (no position before the
returned offset matches), and pre-release matching prefers the longest
valid run (`"1.2.3-rc.10"` matches whole, not as `1.2.3` plus garbage). -/
theorem guessVersion_extraction :
    guessVersion (strL "app-v1.2.3-rc.1+build5.tar.gz") =
      some (⟨[1, 2, 3], strL "rc.1", strL "build5.tar.gz"⟩, 4) ∧
    (guessMatchParts (strL "app-v1.2.3-rc.1+build5.tar.gz")).map
        (fun ip => (ip.1, vpMatched ip.2)) =
      some (4, strL "v1.2.3-rc.1+build5.tar.gz") ∧
    guessVersion (strL "no-version-here") = none ∧
    (∀ (s : Str) (i : Nat) (p : VParts), guessMatchParts s = some (i, p) →
      ∀ j, j < i → matchAt (s.drop j) = none) ∧
    (guessMatchParts (strL "1.2.3-rc.10")).map (fun ip => (ip.1, vpMatched ip.2)) =
      some (0, strL "1.2.3-rc.10") := by
  refine ⟨by decide, by decide, by decide, ?_, by decide⟩
  intro s i p h j hj
  exact guessMatchAux_none_before s 0 i p h j (by omega)

/-- Concrete instantiation of the leftmost-match clause of
`guessVersion_extraction`: no version match starts before offset 4 of
`"app-v1.2.3-rc.1+build5.tar.gz"`. -/
theorem guessVersion_extraction_w :
    matchAt ((strL "app-v1.2.3-rc.1+build5.tar.gz").drop 3) = none :=
  guessVersion_extraction.2.2.2.1 (strL "app-v1.2.3-rc.1+build5.tar.gz") 4
    ⟨true, strL "1.2.3", strL "-rc.1", strL "rc.1", strL "+build5.tar.gz",
      strL "build5.tar.gz"⟩ (by decide) 3 (by omega)

/-! ## Directory listing entries and the sort comparator (`index.go`) -/

/-- One row of a directory listing (the Go struct `Item`).  `Size` is set
exactly for concrete objects; directory-like entries carry only `Name`. -/
structure Item where
  Name : Str
  Size : Option Nat
  Fingerprint : Option Str
  ContentType : Option Str
  Timestamp : Option Nat
  Metadata : List (Str × Str)
deriving DecidableEq, Repr

/-- A directory-like entry: only the name is set. -/
def dirItem (name : Str) : Item := ⟨name, none, none, none, none, []⟩

/-- Model of `sortLinks` (the comparator handed to
`slices.SortStableFunc`); `vs` is the `-version-sort` flag. -/
def sortLinks (vs : Bool) (a b : Item) : Int :=
  if a.Size.isSome ≠ b.Size.isSome then
    (if a.Size.isSome then -1 else 1)
  else if vs then
    match guessVersion a.Name, guessVersion b.Name with
    | some (va, i), some (vb, j) =>
      let c := strCompare (a.Name.take i) (b.Name.take j)
      if c ≠ 0 then c
      else
        let c2 := versionCompare vb va
        if c2 ≠ 0 then c2 else strCompare a.Name b.Name
    | _, _ => strCompare a.Name b.Name
  else strCompare a.Name b.Name

/-- Model of `slices.SortStableFunc` with comparator `cmp`: a stable sort
placing `a` no later than `b` whenever `cmp a b ≤ 0`. -/
def stableSortCmp {α : Type} (cmp : α → α → Int) (l : List α) : List α :=
  List.insertionSort (fun a b => cmp a b ≤ 0) l

theorem stableSortCmp_perm {α : Type} (cmp : α → α → Int) (l : List α) :
    List.Perm (stableSortCmp cmp l) l :=
  List.perm_insertionSort _ l

/-- Two items compare as `0` under `sortLinks` exactly when they have the
same name and the same size-presence. -/
theorem sortLinks_eq_zero_iff (vs : Bool) (a b : Item) :
    sortLinks vs a b = 0 ↔ (a.Name = b.Name ∧ a.Size.isSome = b.Size.isSome) := by
  unfold sortLinks
  by_cases hp : a.Size.isSome = b.Size.isSome
  · rw [if_neg (by simp [hp])]
    have htail : strCompare a.Name b.Name = 0 ↔
        (a.Name = b.Name ∧ a.Size.isSome = b.Size.isSome) := by
      rw [strCompare_eq_zero_iff]
      exact ⟨fun h => ⟨h, hp⟩, fun h => h.1⟩
    by_cases hvs : vs = true
    · rw [if_pos hvs]
      cases hga : guessVersion a.Name with
      | none => simpa using htail
      | some va =>
        cases hgb : guessVersion b.Name with
        | none => simpa using htail
        | some vb =>
          rcases va with ⟨va, ia⟩
          rcases vb with ⟨vb, jb⟩
          show (if strCompare (a.Name.take ia) (b.Name.take jb) ≠ 0 then _
            else if versionCompare vb va ≠ 0 then versionCompare vb va
            else strCompare a.Name b.Name) = 0 ↔ _
          constructor
          · intro h
            by_cases hc : strCompare (a.Name.take ia) (b.Name.take jb) = 0
            · rw [if_neg (by simpa using hc)] at h
              by_cases hc2 : versionCompare vb va = 0
              · rw [if_neg (by simpa using hc2)] at h
                exact ⟨(strCompare_eq_zero_iff _ _).mp h, hp⟩
              · rw [if_pos hc2] at h
                exact absurd h hc2
            · rw [if_pos hc] at h
              exact absurd h hc
          · rintro ⟨hn, _⟩
            rw [hn, hgb] at hga
            injection hga with hga
            injection hga with hga1 hga2
            subst hga1
            subst hga2
            rw [if_neg (by simp [hn, strCompare_eq_zero_iff]),
              if_neg (by simp [versionCompare_self]), hn]
            exact (strCompare_eq_zero_iff _ _).mpr rfl
    · rw [if_neg hvs]
      exact htail
  · rw [if_pos (by simpa using hp)]
    constructor
    · intro h
      by_cases ha : a.Size.isSome <;> simp [ha] at h
    · rintro ⟨_, h⟩; exact absurd h hp

/-- Items of the same name and size-presence compare as `0` (helper for the
stability argument). -/
theorem sortLinks_same_class (vs : Bool) (a b : Item)
    (hn : a.Name = b.Name) (hp : a.Size.isSome = b.Size.isSome) :
    sortLinks vs a b = 0 :=
  (sortLinks_eq_zero_iff vs a b).mpr ⟨hn, hp⟩

theorem orderedInsert_filter_of_class {α : Type} (r : α → α → Prop)
    [DecidableRel r] (q : α → Bool) (x : α) :
    ∀ l : List α, (∀ y ∈ l, q x = true → q y = true → r x y) →
      (List.orderedInsert r x l).filter q =
        (if q x then x :: l.filter q else l.filter q) := by
  intro l
  induction l with
  | nil => intro _; by_cases h : q x <;> simp [h, List.orderedInsert]
  | cons y ys ih =>
    intro hcl
    by_cases hr : r x y
    · rw [List.orderedInsert_of_le r ys hr]
      by_cases h : q x <;> simp [h, List.filter]
    · simp only [List.orderedInsert, if_neg hr]
      by_cases hq : q y
      · by_cases h : q x
        · exact absurd (hcl y (by simp) h hq) hr
        · rw [List.filter_cons_of_pos (by simpa using hq),
            List.filter_cons_of_pos (by simpa using hq),
            ih (fun z hz => hcl z (by simp [hz])), if_neg (by simpa using h),
            if_neg (by simpa using h)]
      · rw [List.filter_cons_of_neg (by simpa using hq),
          List.filter_cons_of_neg (by simpa using hq),
          ih (fun z hz => hcl z (by simp [hz]))]

/-- Stability of the modelled `slices.SortStableFunc`: for any comparator
whose `0`-classes are given by a boolean key `q` (all `q`-elements compare
`≤ 0` against each other), the subsequence of `q`-elements is unchanged by
sorting. -/
theorem stableSortCmp_filter_of_class {α : Type} (cmp : α → α → Int)
    (q : α → Bool) (hq : ∀ x y : α, q x = true → q y = true → cmp x y ≤ 0) :
    ∀ l : List α, (stableSortCmp cmp l).filter q = l.filter q := by
  intro l
  induction l with
  | nil => rfl
  | cons x xs ih =>
    show (List.orderedInsert _ x (stableSortCmp cmp xs)).filter q = _
    rw [orderedInsert_filter_of_class _ q x (stableSortCmp cmp xs)
      (fun y _ hx hy => hq x y hx hy), ih]
    by_cases h : q x
    · rw [if_pos h, List.filter_cons_of_pos (by simpa using h)]
    · rw [if_neg (by simpa using h), List.filter_cons_of_neg (by simpa using h)]

/-- C4: The `sortLinks` comparator: entries with a size sort strictly
before entries without one; within a group, when `-version-sort` is on and a
version is extracted from both names, the text before each version is
compared first and, on equality, the versions compare in descending order
(`versionCompare vb va`); in every other case (flag off, extraction failure
on either side, or equal versions with equal version-text) the full names
compare lexicographically ascending.  The sort applied with the comparator
(`slices.SortStableFunc`, modelled by `stableSortCmp`) is a permutation and
is stable: the subsequence of entries of any fixed name and size-presence —
exactly the comparator's `0`-classes, by `sortLinks_eq_zero_iff` — is
unchanged. -/
theorem sort_comparator_spec (vs : Bool) :
    (∀ a b : Item, a.Size.isSome = true → b.Size.isSome = false →
        sortLinks vs a b = -1 ∧ sortLinks vs b a = 1) ∧
    (∀ a b : Item, a.Size.isSome = b.Size.isSome →
      ∀ va ia vb jb, vs = true →
        guessVersion a.Name = some (va, ia) → guessVersion b.Name = some (vb, jb) →
        (strCompare (a.Name.take ia) (b.Name.take jb) ≠ 0 →
            sortLinks vs a b = strCompare (a.Name.take ia) (b.Name.take jb)) ∧
        (strCompare (a.Name.take ia) (b.Name.take jb) = 0 → versionCompare vb va ≠ 0 →
            sortLinks vs a b = versionCompare vb va) ∧
        (strCompare (a.Name.take ia) (b.Name.take jb) = 0 → versionCompare vb va = 0 →
            sortLinks vs a b = strCompare a.Name b.Name)) ∧
    (∀ a b : Item, a.Size.isSome = b.Size.isSome →
        (vs = false ∨ guessVersion a.Name = none ∨ guessVersion b.Name = none) →
        sortLinks vs a b = strCompare a.Name b.Name) ∧
    (∀ l : List Item, List.Perm (stableSortCmp (sortLinks vs) l) l) ∧
    (∀ (l : List Item) (n : Str) (p : Bool),
        (stableSortCmp (sortLinks vs) l).filter
            (fun x => decide (x.Name = n ∧ x.Size.isSome = p)) =
          l.filter (fun x => decide (x.Name = n ∧ x.Size.isSome = p))) := by
  refine ⟨?_, ?_, ?_, ?_, ?_⟩
  · intro a b ha hb
    constructor
    · unfold sortLinks
      rw [if_pos (by simp [ha, hb]), if_pos ha]
    · unfold sortLinks
      rw [if_pos (by simp [ha, hb]), if_neg (by simp [hb])]
  · intro a b hp va ia vb jb hvs hga hgb
    have hred : sortLinks vs a b =
        (if strCompare (a.Name.take ia) (b.Name.take jb) ≠ 0 then
          strCompare (a.Name.take ia) (b.Name.take jb)
         else if versionCompare vb va ≠ 0 then versionCompare vb va
         else strCompare a.Name b.Name) := by
      unfold sortLinks
      rw [if_neg (by simp [hp]), if_pos hvs, hga, hgb]
    rw [hred]
    refine ⟨fun hc => by rw [if_pos hc], fun hc hc2 => ?_, fun hc hc2 => ?_⟩
    · rw [if_neg (by simpa using hc), if_pos hc2]
    · rw [if_neg (by simpa using hc), if_neg (by simpa using hc2)]
  · intro a b hp hd
    unfold sortLinks
    rw [if_neg (by simp [hp])]
    rcases hd with hvs | hga | hgb
    · rw [if_neg (by simp [hvs])]
    · by_cases hvs : vs = true
      · rw [if_pos hvs, hga]
      · rw [if_neg hvs]
    · by_cases hvs : vs = true
      · rw [if_pos hvs, hgb]
        cases hga : guessVersion a.Name with
        | none => rfl
        | some va => rcases va with ⟨va, ia⟩; rfl
      · rw [if_neg hvs]
  · intro l
    exact stableSortCmp_perm (sortLinks vs) l
  · intro l n p
    exact stableSortCmp_filter_of_class (sortLinks vs) _
      (fun x y hx hy => by
        simp only [decide_eq_true_eq] at hx hy
        rw [sortLinks_same_class vs x y (hx.1.trans hy.1.symm)
          (hx.2.trans hy.2.symm)]) l

/-- Concrete instantiation of `sort_comparator_spec`: with version-aware
sorting on, `pkg-10.0` sorts before `pkg-2.0` (descending versions after an
equal text part). -/
theorem sort_comparator_spec_w :
    sortLinks true ⟨strL "pkg-2.0", some 1, none, none, none, []⟩
      ⟨strL "pkg-10.0", some 2, none, none, none, []⟩ = 1 :=
  (((sort_comparator_spec true).2.1
      ⟨strL "pkg-2.0", some 1, none, none, none, []⟩
      ⟨strL "pkg-10.0", some 2, none, none, none, []⟩ (by decide)
      ⟨[2, 0, 0], [], []⟩ 4 ⟨[10, 0, 0], [], []⟩ 4 rfl
      (by decide) (by decide)).2.1 (by decide) (by decide)).trans (by decide)

/-! ## The `handleIndex` listing pipeline (`index.go`)

`handleIndex` concatenates mount-derived entries with backend-derived
entries, stable-sorts with `sortLinks`, removes adjacent same-name
duplicates with `slices.CompactFunc`, and renders either JSON (the items
as-is) or HTML (skipping a literal `favicon.ico` entry at the root).  The
backend listing is external; its results are passed in as a list of
records (`attrs.Name` set for objects, `attrs.Prefix` set for common
prefixes). -/

/-- Go `strings.ToLower` (ASCII). -/
def strToLower (s : Str) : Str := s.map Char.toLower

/-- One result of the backend object iterator: `name` is set for object
results, `pfx` (Go `attrs.Prefix`) for common-prefix results. -/
structure SRec where
  name : Str
  pfx : Str
  size : Nat
  md5 : Str
  contentType : Str
  updated : Nat
  metadata : List (Str × Str)
deriving DecidableEq, Repr

/-- The fully-populated `Item` built from an object result
(`linksFromStorage`). -/
def srItem (qp : Str) (r : SRec) : Item :=
  ⟨trimPfx qp r.name, some r.size, some r.md5, some r.contentType,
    some r.updated, r.metadata⟩

/-- The iteration loop of `linksFromStorage`: accumulates entries and the
readme candidate (`skip` is the `-skip-readme` flag, `qp` the query
prefix `mount.Prefix + strings.TrimPrefix(path, mount.Path)`). -/
def lfsAux (skip : Bool) (qp : Str) :
    List SRec → List Item → Option SRec → List Item × Option SRec
  | [], acc, rm => (acc, rm)
  | r :: rs, acc, rm =>
    if r.name ≠ [] then
      let rm2 := if strToLower r.name = strL "readme.md" then some r else rm
      if strToLower r.name = strL "readme.md" ∧ skip = true then
        lfsAux skip qp rs acc rm2
      else if r.name ≠ qp then lfsAux skip qp rs (acc ++ [srItem qp r]) rm2
      else lfsAux skip qp rs acc rm2
    else if r.pfx ≠ [] then
      lfsAux skip qp rs (acc ++ [dirItem (trimPfx qp r.pfx)]) rm
    else lfsAux skip qp rs acc rm

/-- Model of `linksFromStorage` over the backend's results. -/
def linksFromStorage (skip : Bool) (qp : Str) (rs : List SRec) :
    List Item × Option SRec :=
  lfsAux skip qp rs [] none

/-- Go `strings.SplitAfterN(s, "/", 2)[0]`: the text up to and including
the first slash (the whole string when it has none). -/
def takeThroughSlash : Str → Str
  | [] => []
  | c :: t => if c = '/' then [c] else c :: takeThroughSlash t

/-- Model of `linksFromMountPoints`: one directory-like entry per mount
strictly below the request path. -/
def linksFromMountPoints (ms : List MountPoint) (path : Str) : List Item :=
  ms.filterMap (fun m =>
    if m.Path ≠ path ∧ strHasPfx path m.Path = true then
      some (dirItem (takeThroughSlash (trimPfx path m.Path)))
    else none)

/-- The predecessor-tracking loop of `slices.CompactFunc` with name
equality: drop an element exactly when the immediately preceding (post-sort)
element has the same name. -/
def compactGo (prev : Item) : List Item → List Item
  | [] => []
  | y :: ys => if y.Name = prev.Name then compactGo y ys else y :: compactGo y ys

/-- Model of `slices.CompactFunc(items, fun a b => a.Name == b.Name)`. -/
def compactByName : List Item → List Item
  | [] => []
  | x :: xs => x :: compactGo x xs

/-- The item pipeline of `handleIndex`: mount-derived entries first, then
backend-derived entries, stable sort, adjacent dedup; also returns the
readme candidate.  `rs` is the backend's answer to the listing query. -/
def handleIndexItems (vs skip : Bool) (ms : List MountPoint) (path : Str)
    (rs : List SRec) : List Item × Option SRec :=
  let fromMounts := linksFromMountPoints ms path
  match findMountPoint ms path with
  | none => (compactByName (stableSortCmp (sortLinks vs) fromMounts), none)
  | some m =>
    let st := linksFromStorage skip (m.Pfx ++ trimPfx m.Path path) rs
    (compactByName (stableSortCmp (sortLinks vs) (fromMounts ++ st.1)), st.2)

/-- Whether the JSON rendering is selected
(`Accept: application/json` or `?format=json`). -/
def jsonOutputSelected (accept fmt : Str) : Bool :=
  decide (accept = strL "application/json") || decide (fmt = strL "json")

/-- The entries carried by the response body: the JSON encoder writes the
item list as-is; the HTML loop writes one row per item but skips a literal
`favicon.ico` entry when the path is the namespace root. -/
def listedEntries (json : Bool) (path : Str) (items : List Item) : List Item :=
  if json then items
  else items.filter (fun it => !(decide (it.Name = strL "favicon.ico" ∧ path = strL "/")))

theorem sortLinks_of_sized_unsized (vs : Bool) (a b : Item)
    (ha : a.Size.isSome = true) (hb : b.Size.isSome = false) :
    sortLinks vs a b = -1 := by
  unfold sortLinks
  rw [if_pos (by simp [ha, hb]), if_pos ha]

theorem sortLinks_of_unsized_sized (vs : Bool) (a b : Item)
    (ha : a.Size.isSome = false) (hb : b.Size.isSome = true) :
    sortLinks vs a b = 1 := by
  unfold sortLinks
  rw [if_pos (by simp [ha, hb]), if_neg (by simp [ha])]

/-- The two-band shape of a sorted listing: no directory-like (size-less)
entry is followed by a concrete-object (sized) entry. -/
def GroupedP (l : List Item) : Prop :=
  List.Pairwise (fun a b => ¬(a.Size.isSome = false ∧ b.Size.isSome = true)) l

theorem orderedInsert_grouped (vs : Bool) (x : Item) :
    ∀ l : List Item, GroupedP l →
      GroupedP (List.orderedInsert (fun a b => sortLinks vs a b ≤ 0) x l) := by
  intro l
  induction l with
  | nil =>
    intro _
    exact List.pairwise_cons.mpr ⟨by simp, List.Pairwise.nil⟩
  | cons y ys ih =>
    intro hg
    have hg' := List.pairwise_cons.mp hg
    by_cases hr : sortLinks vs x y ≤ 0
    · rw [List.orderedInsert_of_le _ ys hr]
      refine List.pairwise_cons.mpr ⟨?_, hg⟩
      intro z hz
      rintro ⟨hxu, hzs⟩
      rcases List.mem_cons.mp hz with rfl | hz
      · rw [sortLinks_of_unsized_sized vs x z hxu hzs] at hr
        exact absurd hr (by norm_num)
      · have hy : y.Size.isSome = true := by
          by_contra hyn
          exact hg'.1 z hz ⟨by simpa using hyn, hzs⟩
        rw [sortLinks_of_unsized_sized vs x y hxu hy] at hr
        exact absurd hr (by norm_num)
    · have hred : List.orderedInsert (fun a b => sortLinks vs a b ≤ 0) x (y :: ys) =
          y :: List.orderedInsert (fun a b => sortLinks vs a b ≤ 0) x ys := by
        simp [List.orderedInsert, hr]
      rw [hred]
      refine List.pairwise_cons.mpr ⟨?_, ih hg'.2⟩
      intro z hz
      rcases (List.mem_orderedInsert _).mp hz with rfl | hz
      · rintro ⟨hyu, hzs⟩
        exact hr (by rw [sortLinks_of_sized_unsized vs z y hzs hyu]; norm_num)
      · exact hg'.1 z hz

theorem stableSortCmp_grouped (vs : Bool) :
    ∀ l : List Item, GroupedP (stableSortCmp (sortLinks vs) l)
  | [] => List.Pairwise.nil
  | x :: xs => orderedInsert_grouped vs x _ (stableSortCmp_grouped vs xs)

theorem compactGo_eq (prev : Item) : ∀ l : List Item,
    compactGo prev l = ((l.zip (prev :: l)).filterMap
      (fun p => if p.1.Name = p.2.Name then none else some p.1)) := by
  intro l
  induction l generalizing prev with
  | nil => rfl
  | cons y ys ih =>
    show (if y.Name = prev.Name then compactGo y ys else y :: compactGo y ys) = _
    rw [List.zip_cons_cons, List.filterMap_cons]
    by_cases h : y.Name = prev.Name
    · rw [if_pos h, if_pos h, ih y]
    · rw [if_neg h, if_neg h, ih y]

theorem compactByName_eq (x : Item) (xs : List Item) :
    compactByName (x :: xs) = x :: ((xs.zip (x :: xs)).filterMap
      (fun p => if p.1.Name = p.2.Name then none else some p.1)) := by
  show x :: compactGo x xs = _
  rw [compactGo_eq]

/-- The last element of `d :: l`. -/
def lastD (d : Item) : List Item → Item
  | [] => d
  | x :: xs => lastD x xs

theorem lastD_mem (d : Item) : ∀ l : List Item, lastD d l ∈ d :: l := by
  intro l
  induction l generalizing d with
  | nil => simp [lastD]
  | cons x xs ih =>
    show lastD x xs ∈ d :: x :: xs
    exact List.mem_cons_of_mem d (ih x)

theorem lastD_split (d : Item) :
    ∀ l : List Item, ∃ init, d :: l = init ++ [lastD d l] := by
  intro l
  induction l generalizing d with
  | nil => exact ⟨[], rfl⟩
  | cons x xs ih =>
    rcases ih x with ⟨init, hinit⟩
    exact ⟨d :: init, by simp [lastD, hinit]⟩

theorem getLast?_eq_lastD (c : Item) (l : List Item) :
    (c :: l).getLast? = some (lastD c l) := by
  rcases lastD_split c l with ⟨init, hinit⟩
  rw [hinit]
  exact List.getLast?_concat init

theorem mem_compactGo (y : Item) : ∀ (l1 : List Item) (prev : Item) (l2 : List Item),
    (lastD prev l1).Name ≠ y.Name → y ∈ compactGo prev (l1 ++ y :: l2) := by
  intro l1
  induction l1 with
  | nil =>
    intro prev l2 h
    show y ∈ (if y.Name = prev.Name then compactGo y l2 else y :: compactGo y l2)
    rw [if_neg (fun hy => h (by simpa [lastD] using hy.symm))]
    exact List.mem_cons_self y _
  | cons z l1' ih =>
    intro prev l2 h
    show y ∈ (if z.Name = prev.Name then compactGo z (l1' ++ y :: l2)
      else z :: compactGo z (l1' ++ y :: l2))
    have hz := ih z l2 h
    by_cases hzp : z.Name = prev.Name
    · rw [if_pos hzp]; exact hz
    · rw [if_neg hzp]; exact List.mem_cons_of_mem z hz

theorem mem_compact_head (x : Item) (xs : List Item) :
    x ∈ compactByName (x :: xs) :=
  List.mem_cons_self x _

theorem mem_compact_split (x y : Item) (l1 l2 : List Item)
    (h : (lastD x l1).Name ≠ y.Name) : y ∈ compactByName (x :: (l1 ++ y :: l2)) :=
  List.mem_cons_of_mem x (mem_compactGo y l1 x l2 h)

theorem exists_first_split (q : Item → Bool) :
    ∀ l : List Item, (∃ x ∈ l, q x = true) →
      ∃ l1 a l2, l = l1 ++ a :: l2 ∧ q a = true ∧ ∀ z ∈ l1, q z = false := by
  intro l
  induction l with
  | nil => rintro ⟨x, hx, _⟩; cases hx
  | cons c t ih =>
    intro hex
    by_cases hc : q c = true
    · exact ⟨[], c, t, rfl, hc, by simp⟩
    · have hext : ∃ x ∈ t, q x = true := by
        rcases hex with ⟨x, hx, hqx⟩
        rcases List.mem_cons.mp hx with rfl | hx
        · exact absurd hqx hc
        · exact ⟨x, hx, hqx⟩
      rcases ih hext with ⟨l1, a, l2, heq, hqa, hl1⟩
      refine ⟨c :: l1, a, l2, by rw [heq]; rfl, hqa, ?_⟩
      intro z hz
      rcases List.mem_cons.mp hz with rfl | hz
      · simpa using hc
      · exact hl1 z hz

theorem takeWhile_split (f : Item → Bool) :
    ∀ (p : List Item) (b : Item) (t : List Item),
      (∀ z ∈ p, f z = true) → f b = false →
      (p ++ b :: t).takeWhile f = p ∧ (p ++ b :: t).dropWhile f = b :: t := by
  intro p
  induction p with
  | nil =>
    intro b t _ hb
    constructor
    · show (b :: t).takeWhile f = []
      rw [List.takeWhile_cons, if_neg (by simp [hb])]
    · show (b :: t).dropWhile f = b :: t
      rw [List.dropWhile_cons, if_neg (by simp [hb])]
  | cons c p' ih =>
    intro b t hp hb
    have hc : f c = true := hp c (by simp)
    have hih := ih b t (fun z hz => hp z (by simp [hz])) hb
    constructor
    · show ((c :: (p' ++ b :: t)).takeWhile f) = c :: p'
      rw [List.takeWhile_cons, if_pos (by simp [hc]), hih.1]
    · show ((c :: (p' ++ b :: t)).dropWhile f) = b :: t
      rw [List.dropWhile_cons, if_pos (by simp [hc]), hih.2]

/-- C5, amended: Deduplication (`slices.CompactFunc` by name) removes
an entry exactly when the immediately preceding post-sort entry has an
identical name (the `zip`-with-predecessor characterisation below).  A
directory-like entry and a same-named concrete-object entry lie in
different primary groups of the sorted list and therefore both survive
deduplication *except* when they become adjacent at the group boundary —
when the last sized entry and the first size-less entry of the sorted list
both carry that name — in which case the directory-like entry is removed.
Away from that boundary case, both appear in the final listing. -/
theorem dedup_adjacent_rule (vs : Bool) (items : List Item) (n : Str) :
    (∀ (x : Item) (xs : List Item),
        compactByName (x :: xs) =
          x :: ((xs.zip (x :: xs)).filterMap
            (fun p => if p.1.Name = p.2.Name then none else some p.1))) ∧
    ((∃ a ∈ items, a.Size.isSome = true ∧ a.Name = n) →
     (∃ b ∈ items, b.Size.isSome = false ∧ b.Name = n) →
     (∀ z b, ((stableSortCmp (sortLinks vs) items).takeWhile
          (fun x => x.Size.isSome)).getLast? = some z →
        ((stableSortCmp (sortLinks vs) items).dropWhile
          (fun x => x.Size.isSome)).head? = some b →
        ¬(z.Name = n ∧ b.Name = n)) →
     (∃ a ∈ compactByName (stableSortCmp (sortLinks vs) items),
        a.Size.isSome = true ∧ a.Name = n) ∧
     (∃ b ∈ compactByName (stableSortCmp (sortLinks vs) items),
        b.Size.isSome = false ∧ b.Name = n)) := by
  constructor
  · exact compactByName_eq
  · intro hsz hun hexc
    have hperm := stableSortCmp_perm (sortLinks vs) items
    have hgrp := stableSortCmp_grouped vs items
    rcases hsz with ⟨a0, ha0, ha0s, ha0n⟩
    rcases hun with ⟨b0, hb0, hb0s, hb0n⟩
    have ha0' : a0 ∈ stableSortCmp (sortLinks vs) items := hperm.mem_iff.mpr ha0
    have hb0' : b0 ∈ stableSortCmp (sortLinks vs) items := hperm.mem_iff.mpr hb0
    constructor
    · rcases exists_first_split (fun x => x.Size.isSome && decide (x.Name = n)) _
        ⟨a0, ha0', by simp [ha0s, ha0n]⟩ with ⟨l1, a, l2, hsplit, hqa, hl1⟩
      simp only [Bool.and_eq_true, decide_eq_true_eq] at hqa
      cases l1 with
      | nil =>
        refine ⟨a, ?_, hqa.1, hqa.2⟩
        rw [hsplit]
        exact mem_compact_head a l2
      | cons c l1' =>
        refine ⟨a, ?_, hqa.1, hqa.2⟩
        have hzmem := lastD_mem c l1'
        rw [hsplit] at hgrp
        have hPza := (List.pairwise_append.mp hgrp).2.2 (lastD c l1') hzmem a (by simp)
        have hzs : (lastD c l1').Size.isSome = true := by
          by_contra hc
          exact hPza ⟨by simpa using hc, hqa.1⟩
        have hzq := hl1 (lastD c l1') hzmem
        have hzn : (lastD c l1').Name ≠ n := by
          intro hh
          rw [hzs, hh] at hzq
          simp at hzq
        rw [hsplit]
        exact mem_compact_split c a l1' l2 (by rw [hqa.2]; exact hzn)
    · rcases exists_first_split (fun x => !x.Size.isSome && decide (x.Name = n)) _
        ⟨b0, hb0', by simp [hb0s, hb0n]⟩ with ⟨l1, b, l2, hsplit, hqb, hl1⟩
      simp only [Bool.and_eq_true, Bool.not_eq_true', decide_eq_true_eq] at hqb
      cases l1 with
      | nil =>
        refine ⟨b, ?_, hqb.1, hqb.2⟩
        rw [hsplit]
        exact mem_compact_head b l2
      | cons c l1' =>
        refine ⟨b, ?_, hqb.1, hqb.2⟩
        have hzmem := lastD_mem c l1'
        by_cases hzs : (lastD c l1').Size.isSome = true
        · rcases lastD_split c l1' with ⟨init, hinit⟩
          rw [hsplit] at hgrp
          have hpl1 := (List.pairwise_append.mp hgrp).1
          have hall : ∀ w ∈ c :: l1', w.Size.isSome = true := by
            intro w hw
            rw [hinit] at hw hpl1
            rcases List.mem_append.mp hw with hw | hw
            · have hP := (List.pairwise_append.mp hpl1).2.2 w hw (lastD c l1') (by simp)
              by_contra hc
              exact hP ⟨by simpa using hc, hzs⟩
            · simp at hw
              rw [hw]
              exact hzs
          have htw := takeWhile_split (fun x => x.Size.isSome) (c :: l1') b l2
            hall (by simp [hqb.1])
          have h1 : ((stableSortCmp (sortLinks vs) items).takeWhile
              (fun x => x.Size.isSome)).getLast? = some (lastD c l1') := by
            rw [hsplit]
            show (((c :: l1') ++ b :: l2).takeWhile (fun x => x.Size.isSome)).getLast? = _
            rw [htw.1]
            exact getLast?_eq_lastD c l1'
          have h2 : ((stableSortCmp (sortLinks vs) items).dropWhile
              (fun x => x.Size.isSome)).head? = some b := by
            rw [hsplit]
            show (((c :: l1') ++ b :: l2).dropWhile (fun x => x.Size.isSome)).head? = _
            rw [htw.2]
            rfl
          have hne := hexc (lastD c l1') b h1 h2
          have hzn : (lastD c l1').Name ≠ n := fun hh => hne ⟨hh, hqb.2⟩
          rw [hsplit]
          exact mem_compact_split c b l1' l2 (by rw [hqb.2]; exact hzn)
        · have hzq := hl1 (lastD c l1') hzmem
          have hzn : (lastD c l1').Name ≠ n := by
            intro hh
            rw [hh] at hzq
            simp at hzq
            exact hzs (by rw [hzq])
          rw [hsplit]
          exact mem_compact_split c b l1' l2 (by rw [hqb.2]; exact hzn)

/-- C5, counterexample: A concrete-object entry and a same-named
directory-like entry *can* merge: with a single mount `/a/` on an empty
query prefix, a backend listing containing a placeholder object named
`sub/` and the common prefix `sub/` produces, after sorting, the sized
entry immediately followed by the same-named size-less entry — the group
boundary — and deduplication removes the directory-like entry, so only one
of the two appears in the final listing. -/
theorem dedup_groups_merge_cex :
    (handleIndexItems false false [⟨strL "/a/", strL "bkt", strL ""⟩] (strL "/a/")
        [⟨strL "sub/", [], 5, strL "aa", strL "ct", 0, []⟩,
         ⟨[], strL "sub/", 0, [], [], 0, []⟩]).1 =
      [⟨strL "sub/", some 5, some (strL "aa"), some (strL "ct"), some 0, []⟩] ∧
    ¬ ∃ b ∈ (handleIndexItems false false [⟨strL "/a/", strL "bkt", strL ""⟩]
        (strL "/a/")
        [⟨strL "sub/", [], 5, strL "aa", strL "ct", 0, []⟩,
         ⟨[], strL "sub/", 0, [], [], 0, []⟩]).1,
      b.Size.isSome = false ∧ b.Name = strL "sub/" := by
  constructor
  · decide
  · decide

/-- Concrete instantiation of `dedup_adjacent_rule`: with sized entries
`z`, `zz` and a directory-like `z`, the sorted list has `zz` at the group
boundary, so both the sized `z` and the directory-like `z` survive. -/
theorem dedup_adjacent_rule_w :
    (∃ a ∈ compactByName (stableSortCmp (sortLinks false)
        [⟨strL "z", some 1, none, none, none, []⟩,
         ⟨strL "zz", some 2, none, none, none, []⟩, dirItem (strL "z")]),
      a.Size.isSome = true ∧ a.Name = strL "z") ∧
    (∃ b ∈ compactByName (stableSortCmp (sortLinks false)
        [⟨strL "z", some 1, none, none, none, []⟩,
         ⟨strL "zz", some 2, none, none, none, []⟩, dirItem (strL "z")]),
      b.Size.isSome = false ∧ b.Name = strL "z") :=
  (dedup_adjacent_rule false
      [⟨strL "z", some 1, none, none, none, []⟩,
       ⟨strL "zz", some 2, none, none, none, []⟩, dirItem (strL "z")]
      (strL "z")).2
    (by decide) (by decide)
    (by
      intro z b hz hb
      have hfact : ((stableSortCmp (sortLinks false)
          [⟨strL "z", some 1, none, none, none, []⟩,
           ⟨strL "zz", some 2, none, none, none, []⟩,
           dirItem (strL "z")]).takeWhile (fun x => x.Size.isSome)).getLast? =
          some ⟨strL "zz", some 2, none, none, none, []⟩ := by decide
      rw [hfact] at hz
      injection hz with hz
      subst hz
      rintro ⟨hzn, _⟩
      exact absurd hzn (by decide))

/-- C9, counterexample: The JSON and HTML renderings do *not* carry
the same entry set at the namespace root when a literal `favicon.ico` entry
is present: the HTML loop skips it (`continue`), but the JSON encoder
writes the item list as-is, favicon included. -/
theorem json_html_entries_cex :
    listedEntries true (strL "/")
        [⟨strL "favicon.ico", some 1, none, none, none, []⟩] ≠
      listedEntries false (strL "/")
        [⟨strL "favicon.ico", some 1, none, none, none, []⟩] := by
  decide

/-- C9, amended: The JSON response carries the item list exactly; the
HTML response carries the same entries in the same order except that, at
the namespace root, a literal `favicon.ico` entry is suppressed from the
HTML rendering only.  Consequently the two renderings agree whenever the
path is not the root or no `favicon.ico` entry is present. -/
theorem json_html_entries (path : Str) (items : List Item) :
    listedEntries true path items = items ∧
    (path ≠ strL "/" → listedEntries false path items = items) ∧
    listedEntries false (strL "/") items =
      items.filter (fun it => !(decide (it.Name = strL "favicon.ico"))) ∧
    ((¬ ∃ it ∈ items, it.Name = strL "favicon.ico") ∨ path ≠ strL "/" →
      listedEntries false path items = listedEntries true path items) := by
  refine ⟨rfl, ?_, ?_, ?_⟩
  · intro hpath
    show items.filter _ = items
    rw [List.filter_eq_self]
    intro a _
    simp [hpath]
  · show items.filter _ = items.filter _
    apply List.filter_congr
    intro a _
    simp
  · intro hd
    show items.filter _ = items
    rw [List.filter_eq_self]
    intro a ha
    rcases hd with hfav | hpath
    · simp only [Bool.not_eq_true', decide_eq_false_iff_not]
      rintro ⟨hn, _⟩
      exact hfav ⟨a, ha, hn⟩
    · simp [hpath]

/-- Concrete instantiation of `json_html_entries`: away from the root the
HTML rendering equals the JSON one. -/
theorem json_html_entries_w :
    listedEntries false (strL "/a/")
        [⟨strL "favicon.ico", some 1, none, none, none, []⟩] =
      [⟨strL "favicon.ico", some 1, none, none, none, []⟩] :=
  (json_html_entries (strL "/a/")
      [⟨strL "favicon.ico", some 1, none, none, none, []⟩]).2.1 (by decide)

/-- First-argument-preferring choice on options (Go's "last assignment
wins" readme bookkeeping, folded from failing the right). -/
def optOr {α : Type} (a b : Option α) : Option α :=
  match a with
  | some x => some x
  | none => b

theorem getLast?_cons_optOr {α : Type} (x : α) :
    ∀ l : List α, (x :: l).getLast? = optOr l.getLast? (some x) := by
  intro l
  induction l generalizing x with
  | nil => rfl
  | cons y ys ih =>
    rw [List.getLast?_cons_cons, ih y]
    cases hys : ys.getLast? <;> rfl

theorem optOr_optOr_some {α : Type} (a : Option α) (x : α) (b : Option α) :
    optOr (optOr a (some x)) b = optOr a (some x) := by
  cases a <;> rfl

/-- The entry selection and readme recording of `linksFromStorage`, as one
characterisation of its accumulation loop. -/
theorem lfsAux_spec (skip : Bool) (qp : Str) :
    ∀ (rs : List SRec) (acc : List Item) (rm : Option SRec),
      lfsAux skip qp rs acc rm =
        (acc ++ rs.filterMap (fun r =>
            if r.name ≠ [] then
              (if (strToLower r.name = strL "readme.md" ∧ skip = true) ∨ r.name = qp
               then none else some (srItem qp r))
            else if r.pfx ≠ [] then some (dirItem (trimPfx qp r.pfx)) else none),
          optOr ((rs.filter (fun r => !(decide (r.name = [])) &&
            decide (strToLower r.name = strL "readme.md"))).getLast?) rm) := by
  intro rs
  induction rs with
  | nil => intro acc rm; simp [lfsAux, optOr]
  | cons r rs' ih =>
    intro acc rm
    simp only [lfsAux]
    rw [List.filterMap_cons, List.filter_cons]
    by_cases hname : r.name = []
    · have h1 : ¬(r.name ≠ []) := fun h => h hname
      have hg : ¬((!(decide (r.name = [])) &&
          decide (strToLower r.name = strL "readme.md")) = true) := by
        simp [hname]
      rw [if_neg h1, if_neg h1, if_neg hg]
      by_cases hpfx : r.pfx = []
      · have h2 : ¬(r.pfx ≠ []) := fun h => h hpfx
        rw [if_neg h2, if_neg h2, ih]
      · have h2 : r.pfx ≠ [] := hpfx
        rw [if_pos h2, if_pos h2, ih]
        simp
    · have hname' : r.name ≠ [] := hname
      rw [if_pos hname', if_pos hname']
      by_cases hrm : strToLower r.name = strL "readme.md"
      · have hg : (!(decide (r.name = [])) &&
            decide (strToLower r.name = strL "readme.md")) = true := by
          simp [hname, hrm]
        rw [if_pos hg, if_pos hrm]
        by_cases hskip : skip = true
        · rw [if_pos (show strToLower r.name = strL "readme.md" ∧ skip = true from
              ⟨hrm, hskip⟩),
            if_pos (show (strToLower r.name = strL "readme.md" ∧ skip = true) ∨
              r.name = qp from Or.inl ⟨hrm, hskip⟩),
            ih, getLast?_cons_optOr, optOr_optOr_some]
        · have hcond : ¬(strToLower r.name = strL "readme.md" ∧ skip = true) :=
            fun h => hskip h.2
          rw [if_neg hcond]
          by_cases hqp : r.name = qp
          · rw [if_neg (show ¬(r.name ≠ qp) from fun h => h hqp),
              if_pos (show (strToLower r.name = strL "readme.md" ∧ skip = true) ∨
                r.name = qp from Or.inr hqp),
              ih, getLast?_cons_optOr, optOr_optOr_some]
          · rw [if_pos (show r.name ≠ qp from hqp),
              if_neg (show ¬((strToLower r.name = strL "readme.md" ∧ skip = true) ∨
                r.name = qp) from fun h => h.elim hcond hqp),
              ih, getLast?_cons_optOr, optOr_optOr_some]
            simp
      · have hg : ¬((!(decide (r.name = [])) &&
            decide (strToLower r.name = strL "readme.md")) = true) := by
          simp [hrm]
        have hcond : ¬(strToLower r.name = strL "readme.md" ∧ skip = true) :=
          fun h => hrm h.1
        rw [if_neg hg, if_neg hrm, if_neg hcond]
        by_cases hqp : r.name = qp
        · rw [if_neg (show ¬(r.name ≠ qp) from fun h => h hqp),
            if_pos (show (strToLower r.name = strL "readme.md" ∧ skip = true) ∨
              r.name = qp from Or.inr hqp),
            ih]
        · rw [if_pos (show r.name ≠ qp from hqp),
            if_neg (show ¬((strToLower r.name = strL "readme.md" ∧ skip = true) ∨
              r.name = qp) from fun h => h.elim hcond hqp),
            ih]
          simp

/-- C10, counterexample: A readme-named object's inclusion in the
entries is *not* suppressed exactly when `-skip-readme` is set: with the
flag clear, an object named `readme.md` whose full name equals the listing
query prefix (mount configured with backend prefix `readme.md`) is still
excluded from the entries by the folder-placeholder rule
(`attrs.Name != query.Prefix`), while it is recorded as the readme
candidate. -/
theorem readme_candidate_cex :
    (linksFromStorage false (strL "readme.md")
        [⟨strL "readme.md", [], 3, strL "h", strL "md", 7, []⟩]).1 = [] ∧
    (linksFromStorage false (strL "readme.md")
        [⟨strL "readme.md", [], 3, strL "h", strL "md", 7, []⟩]).2 =
      some ⟨strL "readme.md", [], 3, strL "h", strL "md", 7, []⟩ := by
  constructor
  · decide
  · decide

/-- C10, amended: During aggregation, the readme candidate is exactly
the *last* backend object result whose full name, case-insensitively,
equals `readme.md` (at most one is kept, later case variants overwrite
earlier ones, and recording is independent of inclusion in the entries);
and an object result is included in the entries exactly when its name is
non-empty, it is not a readme-match with `-skip-readme` set, and its name
does not equal the query prefix — so a readme-named object's inclusion is
suppressed when the skip flag is set *or* its name equals the query
prefix. -/
theorem readme_candidate_spec (skip : Bool) (qp : Str) (rs : List SRec) :
    (linksFromStorage skip qp rs).2 =
      (rs.filter (fun r => !(decide (r.name = [])) &&
        decide (strToLower r.name = strL "readme.md"))).getLast? ∧
    (linksFromStorage skip qp rs).1 =
      rs.filterMap (fun r =>
        if r.name ≠ [] then
          (if (strToLower r.name = strL "readme.md" ∧ skip = true) ∨ r.name = qp
           then none else some (srItem qp r))
        else if r.pfx ≠ [] then some (dirItem (trimPfx qp r.pfx)) else none) := by
  unfold linksFromStorage
  rw [lfsAux_spec skip qp rs [] none]
  constructor
  · show optOr _ none = _
    cases (rs.filter _).getLast? <;> rfl
  · simp

/-! ## The readme cache (`readme.go`)

`fetchReadme` keeps a process-wide map from `bucket + "/" + objectName` to
the fetched markdown and the object's last-modified instant at caching
time, a running byte total, and an insertion-ordered key queue; exceeding
the 16 MiB budget after a first-time insertion evicts queued keys oldest
first.  The Go map is modelled as an association list whose order is the
insertion order (new keys are appended), which the key queue mirrors.  The
backend read is external: the object's bytes are passed in as `content`
(`none` = read error). -/

/-- A cache entry: markdown bytes and the source timestamp. -/
structure RMEntry where
  markdown : Str
  timestamp : Nat
deriving DecidableEq, Repr

/-- The process-wide readme-cache state (`rmCache`, `rmCacheSize`,
`rmKeys`). -/
structure RMState where
  cache : List (Str × RMEntry)
  size : Int
  keys : List Str
deriving DecidableEq, Repr

/-- `rmCacheMaxSize = 16 * 1024 * 1024`. -/
def rmCacheMaxSize : Int := 16 * 1024 * 1024

/-- Map lookup (`rmCache[key]`). -/
def mapGet : List (Str × RMEntry) → Str → Option RMEntry
  | [], _ => none
  | (k', v) :: t, k => if k' = k then some v else mapGet t k

/-- Map store (`rmCache[key] = entry`): replace in place, or append a new
key at the end (insertion order). -/
def mapInsert (k : Str) (v : RMEntry) : List (Str × RMEntry) → List (Str × RMEntry)
  | [] => [(k, v)]
  | (k', v') :: t => if k' = k then (k, v) :: t else (k', v') :: mapInsert k v t

/-- Map removal (`delete(rmCache, key)`). -/
def mapErase (k : Str) : List (Str × RMEntry) → List (Str × RMEntry)
  | [] => []
  | (k', v') :: t => if k' = k then t else (k', v') :: mapErase k t

/-- `len(rmCache[key].markdown)` — zero when the key is absent (Go zero
value). -/
def entrySize (m : List (Str × RMEntry)) (k : Str) : Int :=
  match mapGet m k with
  | some e => (e.markdown.length : Int)
  | none => 0

/-- `cacheKey`: `attrs.Bucket + "/" + attrs.Name`. -/
def cacheKey (bucket nm : Str) : Str := bucket ++ strL "/" ++ nm

/-- The eviction loop: while the running total exceeds the budget and the
queue is non-empty, evict the oldest queued key. -/
def purgeLoop : List (Str × RMEntry) → Int → List Str →
    (List (Str × RMEntry)) × Int × List Str
  | m, size, [] => (m, size, [])
  | m, size, k :: ks =>
    if size > rmCacheMaxSize then
      purgeLoop (mapErase k m) (size - entrySize m k) ks
    else (m, size, k :: ks)

/-- The miss path of `fetchReadme`: read the full content from the
backend, overwrite the entry, and — on a first-time insertion only — grow
the running total, push the key, and purge. -/
def fetchMiss (st : RMState) (key : Str) (updated : Nat) (content : Option Str)
    (wasInCache : Bool) : Option Str × RMState × Bool :=
  match content with
  | none => (none, st, true)
  | some md =>
    let cache1 := mapInsert key ⟨md, updated⟩ st.cache
    if wasInCache then (some md, ⟨cache1, st.size, st.keys⟩, true)
    else
      let p := purgeLoop cache1 (st.size + (md.length : Int)) (st.keys ++ [key])
      (some md, ⟨p.1, p.2.1, p.2.2⟩, true)

/-- Model of `fetchReadme`: returns the markdown (`none` on backend read
error), the new cache state, and whether the backend was contacted. -/
def fetchReadme (st : RMState) (bucket nm : Str) (updated : Nat)
    (content : Option Str) : Option Str × RMState × Bool :=
  match mapGet st.cache (cacheKey bucket nm) with
  | some entry =>
    if entry.timestamp ≤ updated then (some entry.markdown, st, false)
    else fetchMiss st (cacheKey bucket nm) updated content true
  | none => fetchMiss st (cacheKey bucket nm) updated content false

theorem fetchMiss_fetched (st : RMState) (key : Str) (updated : Nat)
    (content : Option Str) (w : Bool) :
    (fetchMiss st key updated content w).2.2 = true := by
  unfold fetchMiss
  cases content with
  | none => rfl
  | some md => cases w <;> simp

theorem fetchReadme_eq_some (st : RMState) (bucket nm : Str) (updated : Nat)
    (content : Option Str) (e : RMEntry)
    (hm : mapGet st.cache (cacheKey bucket nm) = some e) :
    fetchReadme st bucket nm updated content =
      (if e.timestamp ≤ updated then (some e.markdown, st, false)
       else fetchMiss st (cacheKey bucket nm) updated content true) := by
  unfold fetchReadme
  rw [hm]

theorem fetchReadme_eq_none (st : RMState) (bucket nm : Str) (updated : Nat)
    (content : Option Str)
    (hm : mapGet st.cache (cacheKey bucket nm) = none) :
    fetchReadme st bucket nm updated content =
      fetchMiss st (cacheKey bucket nm) updated content false := by
  unfold fetchReadme
  rw [hm]

theorem fetchMiss_none (st : RMState) (key : Str) (updated : Nat) (w : Bool) :
    fetchMiss st key updated none w = (none, st, true) := rfl

theorem fetchMiss_some_true (st : RMState) (key : Str) (updated : Nat) (md : Str) :
    fetchMiss st key updated (some md) true =
      (some md, ⟨mapInsert key ⟨md, updated⟩ st.cache, st.size, st.keys⟩, true) := rfl

theorem fetchMiss_some_false (st : RMState) (key : Str) (updated : Nat) (md : Str) :
    fetchMiss st key updated (some md) false =
      (some md,
        ⟨(purgeLoop (mapInsert key ⟨md, updated⟩ st.cache)
            (st.size + (md.length : Int)) (st.keys ++ [key])).1,
          (purgeLoop (mapInsert key ⟨md, updated⟩ st.cache)
            (st.size + (md.length : Int)) (st.keys ++ [key])).2.1,
          (purgeLoop (mapInsert key ⟨md, updated⟩ st.cache)
            (st.size + (md.length : Int)) (st.keys ++ [key])).2.2⟩, true) := rfl

/-- C8: A fetch returns the cached content without contacting the
backend exactly when the key is present and the entry's stored timestamp
is not after the supplied last-modified timestamp; in that case the state
is unchanged and the cached markdown is returned.  In particular any fetch
whose supplied timestamp is equal to or later than the stored one is a
pure cache hit, and the backend is read only when the supplied timestamp
is strictly before the stored one or the key is absent. -/
theorem readme_cache_hit_iff (st : RMState) (bucket nm : Str) (updated : Nat)
    (content : Option Str) :
    ((fetchReadme st bucket nm updated content).2.2 = false ↔
      ∃ e, mapGet st.cache (cacheKey bucket nm) = some e ∧ e.timestamp ≤ updated) ∧
    (∀ e, mapGet st.cache (cacheKey bucket nm) = some e → e.timestamp ≤ updated →
      fetchReadme st bucket nm updated content = (some e.markdown, st, false)) := by
  constructor
  · cases hm : mapGet st.cache (cacheKey bucket nm) with
    | none =>
      rw [fetchReadme_eq_none st bucket nm updated content hm, fetchMiss_fetched]
      constructor
      · intro h; exact absurd h (by simp)
      · rintro ⟨e, he, _⟩; exact Option.noConfusion he
    | some e =>
      rw [fetchReadme_eq_some st bucket nm updated content e hm]
      by_cases hts : e.timestamp ≤ updated
      · rw [if_pos hts]
        exact ⟨fun _ => ⟨e, rfl, hts⟩, fun _ => rfl⟩
      · rw [if_neg hts, fetchMiss_fetched]
        constructor
        · intro h; exact absurd h (by simp)
        · rintro ⟨e2, he2, hts2⟩
          injection he2 with he2
          subst he2
          exact absurd hts2 hts
  · intro e he hts
    rw [fetchReadme_eq_some st bucket nm updated content e he, if_pos hts]

/-- Concrete instantiation of `readme_cache_hit_iff`: a fetch at a later
timestamp for a cached key is served from the cache without a backend
read. -/
theorem readme_cache_hit_iff_w :
    fetchReadme ⟨[(cacheKey (strL "b") (strL "n"), ⟨strL "md", 4⟩)], 2,
        [cacheKey (strL "b") (strL "n")]⟩ (strL "b") (strL "n") 9 none =
      (some (strL "md"),
        ⟨[(cacheKey (strL "b") (strL "n"), ⟨strL "md", 4⟩)], 2,
          [cacheKey (strL "b") (strL "n")]⟩, false) :=
  (readme_cache_hit_iff ⟨[(cacheKey (strL "b") (strL "n"), ⟨strL "md", 4⟩)], 2,
      [cacheKey (strL "b") (strL "n")]⟩ (strL "b") (strL "n") 9 none).2
    ⟨strL "md", 4⟩ (by decide) (by decide)

/-- Total number of markdown bytes held in the cache. -/
def sumSizes (m : List (Str × RMEntry)) : Int :=
  (m.map (fun kv => (kv.2.markdown.length : Int))).sum

theorem sumSizes_append (m1 m2 : List (Str × RMEntry)) :
    sumSizes (m1 ++ m2) = sumSizes m1 + sumSizes m2 := by
  simp [sumSizes]

theorem mapInsert_of_get_none (k : Str) (v : RMEntry) :
    ∀ m : List (Str × RMEntry), mapGet m k = none → mapInsert k v m = m ++ [(k, v)] := by
  intro m
  induction m with
  | nil => intro _; rfl
  | cons kv t ih =>
    rcases kv with ⟨k2, v2⟩
    intro h
    unfold mapGet at h
    by_cases hk : k2 = k
    · rw [if_pos hk] at h; exact Option.noConfusion h
    · rw [if_neg hk] at h
      show (if k2 = k then _ else _) = _
      rw [if_neg hk, ih h]
      rfl

theorem purgeLoop_spec :
    ∀ (keys : List Str) (m : List (Str × RMEntry)) (size : Int),
      m.map Prod.fst = keys → size = sumSizes m →
      (purgeLoop m size keys).1.map Prod.fst = (purgeLoop m size keys).2.2 ∧
      (purgeLoop m size keys).2.1 = sumSizes (purgeLoop m size keys).1 ∧
      sumSizes (purgeLoop m size keys).1 ≤ rmCacheMaxSize ∧
      ∃ d, (purgeLoop m size keys).2.2 = keys.drop d := by
  intro keys
  induction keys with
  | nil =>
    intro m size hk hs
    have hm : m = [] := by
      cases m with
      | nil => rfl
      | cons kv t => exact absurd hk (by simp)
    subst hm
    exact ⟨by simp [purgeLoop], by simpa [purgeLoop] using hs,
      by simp [purgeLoop, sumSizes, rmCacheMaxSize], 0, by simp [purgeLoop]⟩
  | cons k ks ih =>
    intro m size hk hs
    by_cases hgt : size > rmCacheMaxSize
    · cases m with
      | nil => exact absurd hk (by simp)
      | cons kv t =>
        rcases kv with ⟨k0, e0⟩
        have hk0 : k0 = k ∧ t.map Prod.fst = ks := by simpa using hk
        rcases hk0 with ⟨rfl, hkt⟩
        have herase : mapErase k0 ((k0, e0) :: t) = t := by
          unfold mapErase
          rw [if_pos rfl]
        have hsz : entrySize ((k0, e0) :: t) k0 = (e0.markdown.length : Int) := by
          unfold entrySize mapGet
          rw [if_pos rfl]
        have heq : purgeLoop ((k0, e0) :: t) size (k0 :: ks) =
            purgeLoop t (size - (e0.markdown.length : Int)) ks := by
          simp only [purgeLoop]
          rw [if_pos hgt, herase, hsz]
        rw [heq]
        have hs2 : size - (e0.markdown.length : Int) = sumSizes t := by
          rw [hs]
          simp [sumSizes]
        obtain ⟨c1, c2, c3, d, c4⟩ := ih t (size - (e0.markdown.length : Int)) hkt hs2
        exact ⟨c1, c2, c3, d + 1, by simpa using c4⟩
    · have heq : purgeLoop m size (k :: ks) = (m, size, k :: ks) := by
        simp only [purgeLoop]
        rw [if_neg hgt]
      rw [heq]
      refine ⟨hk, hs, ?_, 0, rfl⟩
      rw [← hs]
      omega

/-- C7, amended: Provided no fetch supplies a timestamp strictly
older than the stored timestamp of an already-cached key (per-object
last-modified instants never regress, so the overwrite-in-place path in
which the running total is not adjusted never runs), one `fetchReadme`
step preserves the cache accounting — the key queue lists exactly the
cached keys in insertion order and the running total equals the sum of
the cached byte lengths — and after every completed fetch the cached
bytes fit the 16 MiB budget: a first-time insertion that pushes the total
above the budget evicts queued keys strictly oldest-first (the new queue
is a drop-suffix of the old-queue-plus-new-key), subtracting each evicted
entry's size, until the total is within budget or the queue is empty. -/
theorem readme_cache_budget (st : RMState) (bucket nm : Str) (updated : Nat)
    (content : Option Str)
    (hkeys : st.keys = st.cache.map Prod.fst)
    (hsize : st.size = sumSizes st.cache)
    (hbudget : sumSizes st.cache ≤ rmCacheMaxSize)
    (hmono : ∀ e, mapGet st.cache (cacheKey bucket nm) = some e →
      e.timestamp ≤ updated) :
    ((fetchReadme st bucket nm updated content).2.1.keys =
        (fetchReadme st bucket nm updated content).2.1.cache.map Prod.fst) ∧
    ((fetchReadme st bucket nm updated content).2.1.size =
        sumSizes (fetchReadme st bucket nm updated content).2.1.cache) ∧
    sumSizes (fetchReadme st bucket nm updated content).2.1.cache ≤ rmCacheMaxSize ∧
    ((∃ d, (fetchReadme st bucket nm updated content).2.1.keys =
        (st.keys ++ [cacheKey bucket nm]).drop d) ∨
      (fetchReadme st bucket nm updated content).2.1.keys = st.keys) := by
  cases hm : mapGet st.cache (cacheKey bucket nm) with
  | some e =>
    rw [fetchReadme_eq_some st bucket nm updated content e hm,
      if_pos (hmono e hm)]
    exact ⟨hkeys, hsize, hbudget, Or.inr rfl⟩
  | none =>
    rw [fetchReadme_eq_none st bucket nm updated content hm]
    cases content with
    | none =>
      rw [fetchMiss_none]
      exact ⟨hkeys, hsize, hbudget, Or.inr rfl⟩
    | some md =>
      rw [fetchMiss_some_false, mapInsert_of_get_none _ _ _ hm]
      have hk1 : (st.cache ++ [(cacheKey bucket nm, (⟨md, updated⟩ : RMEntry))]).map Prod.fst =
          st.keys ++ [cacheKey bucket nm] := by
        rw [hkeys]
        simp
      have hs1 : st.size + (md.length : Int) =
          sumSizes (st.cache ++ [(cacheKey bucket nm, (⟨md, updated⟩ : RMEntry))]) := by
        rw [hsize, sumSizes_append]
        simp [sumSizes]
      obtain ⟨c1, c2, c3, d, c4⟩ := purgeLoop_spec (st.keys ++ [cacheKey bucket nm])
        (st.cache ++ [(cacheKey bucket nm, (⟨md, updated⟩ : RMEntry))])
        (st.size + (md.length : Int)) hk1 hs1
      exact ⟨c1.symm, c2, c3, Or.inl ⟨d, c4⟩⟩

/-- Concrete instantiation of `readme_cache_budget`: a first fetch into an
empty cache leaves the cached bytes within the budget. -/
theorem readme_cache_budget_w :
    sumSizes ((fetchReadme ⟨[], 0, []⟩ (strL "b") (strL "n") 5
        (some (strL "md"))).2.1).cache ≤ rmCacheMaxSize :=
  (readme_cache_budget ⟨[], 0, []⟩ (strL "b") (strL "n") 5 (some (strL "md"))
      rfl rfl (by decide) (fun e he => Option.noConfusion he)).2.2.1

/-- The cache state after first caching a 1-byte readme at timestamp 10. -/
def rmStateA : RMState :=
  (fetchReadme ⟨[], 0, []⟩ (strL "b") (strL "n") 10 (some (strL "a"))).2.1

/-- The cache state after then fetching the same key with a *regressed*
timestamp 5 and a 16 MiB + 1 content. -/
def rmStateB : RMState :=
  (fetchReadme rmStateA (strL "b") (strL "n") 5
    (some (List.replicate 16777217 'x'))).2.1

/-- C7, counterexample: After a completed fetch the cached markdown
bytes can exceed the 16 MiB budget, and the running total can disagree
with the actual cached byte count: when a fetch supplies a timestamp
strictly before the stored one (`entry.timestamp.After(attrs.Updated)`),
the entry is overwritten in place with the newly read content but the
running size total is not adjusted and no purge runs, so a 16 MiB + 1
overwrite of a 1-byte entry leaves the total at 1 while the cache holds
16 MiB + 1 bytes. -/
theorem readme_cache_budget_cex :
    sumSizes rmStateB.cache > rmCacheMaxSize ∧
    rmStateB.size ≠ sumSizes rmStateB.cache := by
  have hA : rmStateA = ⟨[(cacheKey (strL "b") (strL "n"), ⟨strL "a", 10⟩)], 1,
      [cacheKey (strL "b") (strL "n")]⟩ := by decide
  have hB : rmStateB = ⟨[(cacheKey (strL "b") (strL "n"),
      ⟨List.replicate 16777217 'x', 5⟩)], 1, [cacheKey (strL "b") (strL "n")]⟩ := by
    unfold rmStateB
    rw [hA]
    rw [fetchReadme_eq_some _ _ _ _ _ ⟨strL "a", 10⟩ (by decide)]
    rw [if_neg (by decide)]
    rw [fetchMiss_some_true]
    rw [show mapInsert (cacheKey (strL "b") (strL "n"))
        (⟨List.replicate 16777217 'x', 5⟩ : RMEntry)
        [(cacheKey (strL "b") (strL "n"), ⟨strL "a", 10⟩)] =
        [(cacheKey (strL "b") (strL "n"),
          (⟨List.replicate 16777217 'x', 5⟩ : RMEntry))] from by
      unfold mapInsert
      rw [if_pos rfl]]
  rw [hB]
  have hlen : ((List.replicate 16777217 'x').length : Int) = 16777217 := by
    rw [List.length_replicate]
    rfl
  constructor
  · show sumSizes _ > rmCacheMaxSize
    unfold sumSizes rmCacheMaxSize
    rw [List.map_cons, List.map_nil, List.sum_cons, List.sum_nil]
    rw [show ((⟨List.replicate 16777217 'x', 5⟩ : RMEntry).markdown.length : Int) =
      16777217 from hlen]
    norm_num
  · show (1 : Int) ≠ sumSizes _
    unfold sumSizes
    rw [List.map_cons, List.map_nil, List.sum_cons, List.sum_nil]
    rw [show ((⟨List.replicate 16777217 'x', 5⟩ : RMEntry).markdown.length : Int) =
      16777217 from hlen]
    norm_num
